import Mathlib

/-!
Shallow embedding of the core of `rusty-tags` (a tag-index generator for
cargo projects) together with proofs about its specification.

The embedding follows the Rust sources:
  * `src/tags.rs`   — tag merging (vi and emacs modes), per-source update,
                      re-export scanning;
  * `src/types.rs`  — the dependency graph (`DepTree`), the invalidation
                      predicate `needs_tags_update`, `SourceLock`,
                      `SourceVersion::parse_from_id`;
  * `src/dependencies.rs` — graph construction via `new_source`/`set_source`.

File contents are modelled as Lean `String`s (for the merger) or as
`List Char` (for the line scanners), the filesystem as explicit data
(lists of paths, boolean existence flags).  Rust's `sort_unstable` on
`&str` is modelled by `List.insertionSort` with the lexicographic order:
both produce the unique sorted permutation of their input, because the
order is antisymmetric.  Hash sets (`FnvHashSet`) are modelled by lists
with insert-if-absent, which is faithful for membership (the only way the
program observes them, up to iteration order of the final collection).
-/

namespace RustyTags

/-! ## Generic helpers -/

/-- Model of Rust's `Vec::dedup`: remove adjacent duplicate elements. -/
def dedupAdj {α : Type} [DecidableEq α] : List α → List α
  | [] => []
  | [a] => [a]
  | a :: b :: rest => if a = b then dedupAdj (b :: rest) else a :: dedupAdj (b :: rest)

theorem dedupAdj_sublist {α : Type} [DecidableEq α] (l : List α) :
    List.Sublist (dedupAdj l) l := by
  induction l with
  | nil => simp [dedupAdj]
  | cons a t ih =>
    cases t with
    | nil => simp [dedupAdj]
    | cons b rest =>
      by_cases hab : a = b
      · simpa [dedupAdj, hab] using (ih.cons a)
      · simpa [dedupAdj, hab] using ih.cons₂ a

theorem mem_dedupAdj {α : Type} [DecidableEq α] {x : α} {l : List α} :
    x ∈ dedupAdj l ↔ x ∈ l := by
  constructor
  · exact fun h => (dedupAdj_sublist l).mem h
  · intro h
    induction l with
    | nil => simp at h
    | cons a t ih =>
      cases t with
      | nil => simpa [dedupAdj] using h
      | cons b rest =>
        rcases List.mem_cons.mp h with rfl | hx
        · by_cases hab : x = b
          · subst hab
            simp only [dedupAdj, if_pos rfl]
            exact ih (by simp)
          · simp [dedupAdj, hab]
        · by_cases hab : a = b
          · simp only [dedupAdj, if_pos hab]
            exact ih hx
          · simp only [dedupAdj, if_neg hab]
            exact List.mem_cons_of_mem a (ih hx)

theorem head?_dedupAdj {α : Type} [DecidableEq α] (a : α) (l : List α) :
    (dedupAdj (a :: l)).head? = some a := by
  induction l generalizing a with
  | nil => simp [dedupAdj]
  | cons c rs ih =>
    by_cases hac : a = c
    · rw [show dedupAdj (a :: c :: rs) = dedupAdj (c :: rs) by simp [dedupAdj, hac]]
      rw [ih c, hac]
    · simp [dedupAdj, hac]

theorem chain'_ne_dedupAdj {α : Type} [DecidableEq α] (l : List α) :
    (dedupAdj l).Chain' (· ≠ ·) := by
  induction l with
  | nil => simp [dedupAdj]
  | cons a t ih =>
    cases t with
    | nil => simp [dedupAdj]
    | cons b rest =>
      by_cases hab : a = b
      · simpa [dedupAdj, hab] using ih
      · simp only [dedupAdj, if_neg hab]
        have hhd : ∀ y ∈ (dedupAdj (b :: rest)).head?, a ≠ y := by
          intro y hy
          rw [head?_dedupAdj] at hy
          simp at hy
          subst hy
          exact hab
        exact List.chain'_cons'.mpr ⟨hhd, ih⟩

theorem sorted_dedupAdj {α : Type} [DecidableEq α] {r : α → α → Prop} {l : List α}
    (h : l.Pairwise r) : (dedupAdj l).Pairwise r :=
  h.sublist (dedupAdj_sublist l)

/-- In a weakly sorted list, removing adjacent duplicates removes all
duplicates: the result has no duplicate elements at all. -/
theorem nodup_dedupAdj_of_sorted {α : Type} [LinearOrder α] {l : List α}
    (h : l.Sorted (· ≤ ·)) : (dedupAdj l).Nodup := by
  induction l with
  | nil => simp [dedupAdj]
  | cons a t ih =>
    have ht : t.Sorted (· ≤ ·) := h.of_cons
    cases t with
    | nil => simp [dedupAdj]
    | cons b rest =>
      by_cases hab : a = b
      · simpa [dedupAdj, hab] using ih ht
      · simp only [dedupAdj, if_neg hab]
        refine List.nodup_cons.mpr ⟨?_, ih ht⟩
        intro hmem
        have hx : a ∈ b :: rest := mem_dedupAdj.mp hmem
        have hle : a ≤ a := le_refl a
        have hba : b ≤ a := by
          rcases List.mem_cons.mp hx with rfl | hx'
          · exact le_refl a
          · have hb : ∀ x ∈ b :: rest, b ≤ x := by
              intro x hxm
              rcases List.mem_cons.mp hxm with rfl | hxm'
              · exact le_refl x
              · exact (List.sorted_cons.mp ht).1 x hxm'
            exact hb a hx
        have hab' : a ≤ b := (List.sorted_cons.mp h).1 b (by simp)
        exact hab (le_antisymm hab' hba)

/-! ## Lines of a file, as Rust's `str::lines` produces them -/

/-- Split a character list at every occurrence of `sep`, keeping empty
pieces: the model of Rust's `str::split` with a one-character separator
(and of Lean's `String.splitOn` for such separators). -/
def splitChar (sep : Char) : List Char → List (List Char)
  | [] => [[]]
  | c :: cs =>
    if c = sep then [] :: splitChar sep cs
    else
      match splitChar sep cs with
      | [] => [[c]]
      | p :: ps => (c :: p) :: ps

theorem splitChar_ne_nil (sep : Char) (l : List Char) : splitChar sep l ≠ [] := by
  cases l with
  | nil => simp [splitChar]
  | cons c cs =>
    by_cases h : c = sep
    · simp [splitChar, h]
    · simp only [splitChar, if_neg h]
      cases splitChar sep cs <;> simp

/-- Drop one trailing carriage return from a line, as Rust's `str::lines`
does. -/
def stripCR (l : List Char) : List Char :=
  if l.getLast? = some '\r' then l.dropLast else l

/-- Model of Rust's `str::lines` on a character list: split at `'\n'`,
drop the final empty piece produced by a trailing newline (or by an empty
input), and strip one trailing `'\r'` from each line. -/
def linesOfChars (l : List Char) : List (List Char) :=
  let parts := splitChar '\n' l
  (if parts.getLast? = some [] then parts.dropLast else parts).map stripCR

/-- Model of Rust's `str::lines` on a `String`. -/
def rustLines (s : String) : List String :=
  (linesOfChars s.data).map (fun cs => String.mk cs)

/-! ## The tag merger, Vi mode (`merge_tags` in `src/tags.rs`) -/

/-- The merge loop's filter, as written in `merge_tags`: a line is kept
when `line.chars().nth(0)` is some character different from `'!'`. -/
def viKeep (line : String) : Bool :=
  match line.data with
  | [] => false
  | c :: _ => c != '!'

/-- The merged line collection of `merge_tags` (Vi mode): the lines of the
library tag file and of every dependency tag file, each filtered by
`viKeep`, appended in order (the two nested `for` loops of the code). -/
def mergedTagLines (contents : List String) : List String :=
  contents.foldl (fun acc c => acc ++ (rustLines c).filter viKeep) []

/-- The first header line written by `merge_tags` in Vi mode. -/
def viHeaderFormat : String :=
  "!_TAG_FILE_FORMAT\t2\t/extended format; --format=1 will not append ;\" to lines/"

/-- The second header line written by `merge_tags` in Vi mode. -/
def viHeaderSorted : String :=
  "!_TAG_FILE_SORTED\t1\t/0=unsorted, 1=sorted, 2=foldcase/"

/-- The body of the Vi output: merged lines, sorted by `sort_unstable`
(modelled by insertion sort under the lexicographic order on `String`,
which yields the same list because the order is antisymmetric), with
adjacent duplicates removed by `Vec::dedup`. -/
def viBody (contents : List String) : List String :=
  dedupAdj (List.insertionSort (fun a b : String => a ≤ b) (mergedTagLines contents))

/-- Content of `into_tag_file` after `merge_tags` returns in Vi mode, as a
function of the contents of `lib_tag_file` and of the dependency tag
files.  With an empty dependency list the code copies `lib_tag_file` to
`into_tag_file` when the paths differ and does nothing when they are
equal; in both cases the resulting content is `lib`. -/
def merge_tags_vi (lib : String) (deps : List String) : String :=
  if deps.isEmpty then lib
  else
    viHeaderFormat ++ "\n" ++ viHeaderSorted ++ "\n"
      ++ String.join ((viBody (lib :: deps)).map (fun l => l ++ "\n"))

theorem mem_foldl_append {α β : Type} (f : β → List α) (l : List β) :
    ∀ (acc : List α) (x : α),
      (x ∈ l.foldl (fun a c => a ++ f c) acc ↔ x ∈ acc ∨ ∃ c ∈ l, x ∈ f c) := by
  induction l with
  | nil => simp
  | cons c cs ih =>
    intro acc x
    simp only [List.foldl_cons]
    rw [ih]
    simp only [List.mem_append, List.mem_cons]
    constructor
    · rintro (⟨h | h⟩ | ⟨d, hd, hx⟩)
      · exact Or.inl h
      · exact Or.inr ⟨c, Or.inl rfl, h⟩
      · exact Or.inr ⟨d, Or.inr hd, hx⟩
    · rintro (h | ⟨d, rfl | hd, hx⟩)
      · exact Or.inl (Or.inl h)
      · exact Or.inl (Or.inr hx)
      · exact Or.inr ⟨d, hd, hx⟩

theorem mem_mergedTagLines {contents : List String} {x : String} :
    x ∈ mergedTagLines contents ↔ ∃ c ∈ contents, x ∈ (rustLines c).filter viKeep := by
  unfold mergedTagLines
  rw [mem_foldl_append]
  simp

theorem viKeep_iff (l : String) :
    viKeep l = true ↔ l ≠ "" ∧ l.data.head? ≠ some '!' := by
  obtain ⟨d⟩ := l
  cases d with
  | nil => simp [viKeep]
  | cons c cs =>
    simp only [viKeep, List.head?]
    constructor
    · intro h
      refine ⟨by simp [String.ext_iff], ?_⟩
      intro hc
      simp only [Option.some.injEq] at hc
      rw [hc] at h
      simp at h
    · rintro ⟨-, h⟩
      simp only [ne_eq, Option.some.injEq] at h
      simpa using h

/-- C1.  In Vi mode with a non-empty dependency list, the output written
to `into_tag_file` is exactly the two `!_TAG_FILE_FORMAT` and
`!_TAG_FILE_SORTED` header lines followed by the merged body, each line
newline-terminated; the body is lexicographically sorted, has no adjacent
duplicate lines, and its lines are exactly the lines of `lib_tag_file`
and of the dependency tag files that are non-empty and do not begin with
`'!'`. -/
theorem merge_tags_vi_spec (lib : String) (deps : List String) (hne : deps ≠ []) :
    merge_tags_vi lib deps
        = viHeaderFormat ++ "\n" ++ viHeaderSorted ++ "\n"
            ++ String.join ((viBody (lib :: deps)).map (fun l => l ++ "\n"))
      ∧ List.Sorted (· ≤ ·) (viBody (lib :: deps))
      ∧ List.Chain' (· ≠ ·) (viBody (lib :: deps))
      ∧ ∀ l : String, l ∈ viBody (lib :: deps) ↔
          (∃ c ∈ lib :: deps, l ∈ rustLines c) ∧ l ≠ "" ∧ l.data.head? ≠ some '!' := by
  refine ⟨?_, ?_, ?_, ?_⟩
  · rw [merge_tags_vi, if_neg (by simpa using hne)]
  · exact sorted_dedupAdj
      (List.sorted_insertionSort (fun a b : String => a ≤ b) (mergedTagLines (lib :: deps)))
  · exact chain'_ne_dedupAdj _
  · intro l
    unfold viBody
    rw [mem_dedupAdj, (List.perm_insertionSort (fun a b : String => a ≤ b) _).mem_iff,
        mem_mergedTagLines]
    constructor
    · rintro ⟨c, hc, hl⟩
      rcases List.mem_filter.mp hl with ⟨hmem, hkeep⟩
      exact ⟨⟨c, hc, hmem⟩, (viKeep_iff l).mp hkeep⟩
    · rintro ⟨⟨c, hc, hmem⟩, hprop⟩
      exact ⟨c, hc, List.mem_filter.mpr ⟨hmem, (viKeep_iff l).mpr hprop⟩⟩

/-- Witness for C1 at a concrete input. -/
theorem merge_tags_vi_spec_witness :
    (["b\tlib.rs\t1\n"] : List String) ≠ [] ∧
      (merge_tags_vi "a\tlib.rs\t2\n!hdr\n" ["b\tlib.rs\t1\n"]
          = viHeaderFormat ++ "\n" ++ viHeaderSorted ++ "\n"
              ++ String.join ((viBody ["a\tlib.rs\t2\n!hdr\n", "b\tlib.rs\t1\n"]).map
                    (fun l => l ++ "\n"))
        ∧ List.Sorted (· ≤ ·) (viBody ["a\tlib.rs\t2\n!hdr\n", "b\tlib.rs\t1\n"])
        ∧ List.Chain' (· ≠ ·) (viBody ["a\tlib.rs\t2\n!hdr\n", "b\tlib.rs\t1\n"])
        ∧ ∀ l : String, l ∈ viBody ["a\tlib.rs\t2\n!hdr\n", "b\tlib.rs\t1\n"] ↔
            (∃ c ∈ ["a\tlib.rs\t2\n!hdr\n", "b\tlib.rs\t1\n"], l ∈ rustLines c)
              ∧ l ≠ "" ∧ l.data.head? ≠ some '!') :=
  ⟨by decide, merge_tags_vi_spec "a\tlib.rs\t2\n!hdr\n" ["b\tlib.rs\t1\n"] (by decide)⟩

/-- C7.  In Vi mode with an empty dependency list the merger degenerates
to a byte-for-byte copy of `lib_tag_file` (no filtering, sorting or
header rewriting); consequently re-merging an already merged file with an
empty dependency list reproduces it bitwise. -/
theorem merge_tags_vi_empty_copy (lib lib2 : String) (deps deps2 : List String)
    (h : deps = []) :
    merge_tags_vi lib deps = lib
      ∧ merge_tags_vi (merge_tags_vi lib2 deps2) deps = merge_tags_vi lib2 deps2 := by
  subst h
  exact ⟨rfl, rfl⟩

/-- Witness for C7 at a concrete input. -/
theorem merge_tags_vi_empty_copy_witness :
    ([] : List String) = []
      ∧ merge_tags_vi "x\ty\n" [] = "x\ty\n"
        ∧ merge_tags_vi (merge_tags_vi "q" ["r"]) [] = merge_tags_vi "q" ["r"] :=
  ⟨rfl, merge_tags_vi_empty_copy "x\ty\n" "q" [] ["r"] rfl⟩

/-! ## The tag merger, Emacs mode (`merge_tags` in `src/tags.rs`) -/

/-- The `<path>,include` lines appended by `merge_tags` in Emacs mode: one
per dependency tag file, in order, skipping entries equal to
`into_tag_file` (the `for` loop with its inequality test). -/
def emacsAppendedLines (depFiles : List String) (intoFile : String) : List String :=
  depFiles.foldl (fun acc f => if f = intoFile then acc else acc ++ [f ++ ",include"]) []

/-- Content of `into_tag_file` after `merge_tags` returns in Emacs mode:
the bytes of `lib_tag_file` (copied beforehand when the two paths differ,
already present when they are equal) followed by the appended include
lines, each newline-terminated. -/
def merge_tags_emacs (libContents : String) (depFiles : List String) (intoFile : String) :
    String :=
  libContents ++ String.join ((emacsAppendedLines depFiles intoFile).map (fun l => l ++ "\n"))

theorem emacsAppendedLines_eq (depFiles : List String) (intoFile : String) :
    emacsAppendedLines depFiles intoFile
      = (depFiles.filter (fun f => f ≠ intoFile)).map (fun f => f ++ ",include") := by
  unfold emacsAppendedLines
  suffices h : ∀ acc : List String,
      depFiles.foldl (fun acc f => if f = intoFile then acc else acc ++ [f ++ ",include"]) acc
        = acc ++ (depFiles.filter (fun f => f ≠ intoFile)).map (fun f => f ++ ",include") by
    simpa using h []
  induction depFiles with
  | nil => simp
  | cons d ds ih =>
    intro acc
    by_cases hd : d = intoFile
    · simp [List.foldl_cons, hd, ih]
    · simp [List.foldl_cons, hd, ih]

theorem append_include_injective :
    Function.Injective (fun f : String => f ++ ",include") := by
  intro a b hab
  simp only [String.ext_iff, String.data_append] at hab
  exact String.ext (List.append_cancel_right hab)

/-- Counterexample to C4 as stated: when the dependency file list contains
the same path twice, the Emacs output references that dependency file
twice, not at most once. -/
theorem merge_tags_emacs_dup_counterexample :
    1 < List.count ("d,include") (emacsAppendedLines ["d", "d"] "t") := by
  decide

/-- C4 (amended).  In Emacs mode the resulting content of `into_tag_file`
is — for every dependency file list — the bytes of `lib_tag_file`
followed by one `<path>,include` line per dependency tag file entry
different from `into_tag_file`, and the output never references
`into_tag_file` itself.  Each dependency path is referenced once per
occurrence in the list (so a duplicated path is referenced twice), and
when the list contains no duplicate paths each dependency file is
referenced at most once. -/
theorem merge_tags_emacs_spec (libContents : String) (depFiles : List String)
    (intoFile : String) :
    merge_tags_emacs libContents depFiles intoFile
        = libContents
            ++ String.join ((depFiles.filter (fun f => f ≠ intoFile)).map
                  (fun f => f ++ ",include\n"))
      ∧ (intoFile ++ ",include") ∉ emacsAppendedLines depFiles intoFile
      ∧ (∀ f : String, List.count (f ++ ",include") (emacsAppendedLines depFiles intoFile)
          = if f = intoFile then 0 else depFiles.count f)
      ∧ (depFiles.Nodup →
          ∀ f : String, List.count (f ++ ",include") (emacsAppendedLines depFiles intoFile) ≤ 1) := by
  have hcount : ∀ f : String,
      List.count (f ++ ",include") (emacsAppendedLines depFiles intoFile)
        = if f = intoFile then 0 else depFiles.count f := by
    intro f
    rw [emacsAppendedLines_eq,
      List.count_map_of_injective (depFiles.filter (fun f => f ≠ intoFile))
        (fun f => f ++ ",include") append_include_injective f]
    by_cases hf : f = intoFile
    · rw [if_pos hf]
      rw [List.count_eq_zero]
      intro hmem
      exact absurd hf (by simpa using (List.mem_filter.mp hmem).2)
    · rw [if_neg hf]
      exact List.count_filter (by simpa using hf)
  refine ⟨?_, ?_, hcount, ?_⟩
  · unfold merge_tags_emacs
    rw [emacsAppendedLines_eq, List.map_map]
    have hfun : ∀ f : String,
        ((fun l => l ++ "\n") ∘ fun f => f ++ ",include") f = f ++ ",include\n" := by
      intro f
      simp only [Function.comp_apply, String.ext_iff, String.data_append, List.append_assoc]
      congr 1
    rw [List.map_congr_left (fun f _ => hfun f)]
  · rw [emacsAppendedLines_eq]
    intro hmem
    rcases List.mem_map.mp hmem with ⟨f, hf, heq⟩
    have : f = intoFile := append_include_injective heq
    subst this
    simpa using (List.mem_filter.mp hf).2
  · intro hnd f
    rw [hcount f]
    by_cases hf : f = intoFile
    · rw [if_pos hf]
      omega
    · rw [if_neg hf]
      exact List.nodup_iff_count_le_one.mp hnd f

/-- Witness for C4 (amended) at a concrete input, the no-duplicates
premise of the last conjunct discharged there. -/
theorem merge_tags_emacs_spec_witness :
    (merge_tags_emacs "libbytes" ["d1", "d2", "t"] "t"
          = "libbytes"
              ++ String.join (((["d1", "d2", "t"] : List String).filter (fun f => f ≠ "t")).map
                    (fun f => f ++ ",include\n")))
      ∧ ("t" ++ ",include") ∉ emacsAppendedLines ["d1", "d2", "t"] "t"
      ∧ (∀ f : String, List.count (f ++ ",include") (emacsAppendedLines ["d1", "d2", "t"] "t")
          = if f = "t" then 0 else (["d1", "d2", "t"] : List String).count f)
      ∧ (∀ f : String, List.count (f ++ ",include")
            (emacsAppendedLines ["d1", "d2", "t"] "t") ≤ 1) :=
  have h := merge_tags_emacs_spec "libbytes" ["d1", "d2", "t"] "t"
  ⟨h.1, h.2.1, h.2.2.1, h.2.2.2 (by decide)⟩

/-! ## Per-source update (`update_tags_internal` in `src/tags.rs`) -/

/-- A dependency as the per-source update sees it: the path of its cached
tags file, whether that file exists on disk, and its contents when it
does. -/
structure CachedDep where
  path : String
  isFile : Bool
  contents : String

/-- The dependency tag files handed to the merger: the `filter_map` of
`update_tags_internal` keeps exactly the dependencies whose cached tags
file exists. -/
def dep_tags_files (deps : List CachedDep) : List String :=
  deps.filterMap (fun d => if d.isFile then some d.path else none)

/-- The warnings emitted by the same `filter_map`: one verbose message per
dependency whose cached tags file is missing. -/
def missing_dep_warnings (deps : List CachedDep) : List String :=
  deps.filterMap (fun d => if d.isFile then none else some d.path)

/-- The second block of `update_tags_internal` (Vi mode): merge the
source's own tags with the cached tags of the dependencies whose cache
file exists, or degenerate to a copy when none exists.  File I/O errors
are abstracted away; the code contains no failure path that depends on a
dependency's cache file being missing. -/
def update_source_tags (srcTags : String) (deps : List CachedDep) : Except String String :=
  let files := dep_tags_files deps
  if files.isEmpty then Except.ok srcTags
  else Except.ok (merge_tags_vi srcTags ((deps.filter (fun d => d.isFile)).map
    (fun d => d.contents)))

theorem dep_tags_files_eq (deps : List CachedDep) :
    dep_tags_files deps = (deps.filter (fun d => d.isFile)).map (fun d => d.path) := by
  unfold dep_tags_files
  induction deps with
  | nil => simp
  | cons e es ih =>
    by_cases he : e.isFile <;> simp [he, ih]

/-- C8.  A dependency whose cached tags file is missing at merge time is
excluded from the list of files handed to the merger — that list consists
exactly of the existing dependencies' cache files — a warning naming it
is emitted, and the per-source update nevertheless succeeds. -/
theorem update_source_tags_skips_missing (srcTags : String) (deps : List CachedDep)
    (d : CachedDep) (hd : d ∈ deps) (hmiss : d.isFile = false) :
    dep_tags_files deps = (deps.filter (fun d => d.isFile)).map (fun d => d.path)
      ∧ d.path ∈ missing_dep_warnings deps
      ∧ ∃ content, update_source_tags srcTags deps = Except.ok content := by
  refine ⟨dep_tags_files_eq deps, ?_, ?_⟩
  · unfold missing_dep_warnings
    rw [List.mem_filterMap]
    exact ⟨d, hd, by simp [hmiss]⟩
  · unfold update_source_tags
    by_cases h : (dep_tags_files deps).isEmpty <;> simp [h]

/-- Witness for C8 at a concrete input. -/
theorem update_source_tags_skips_missing_witness :
    (⟨"m", false, ""⟩ : CachedDep) ∈ [⟨"m", false, ""⟩, ⟨"p", true, "t\tl\t1\n"⟩]
      ∧ (⟨"m", false, ""⟩ : CachedDep).isFile = false
      ∧ (dep_tags_files [⟨"m", false, ""⟩, ⟨"p", true, "t\tl\t1\n"⟩]
            = (([⟨"m", false, ""⟩, ⟨"p", true, "t\tl\t1\n"⟩] : List CachedDep).filter
                  (fun d => d.isFile)).map (fun d => d.path)
          ∧ ("m" : String) ∈ missing_dep_warnings [⟨"m", false, ""⟩, ⟨"p", true, "t\tl\t1\n"⟩]
          ∧ ∃ content, update_source_tags "s\tl\t2\n" [⟨"m", false, ""⟩, ⟨"p", true, "t\tl\t1\n"⟩]
                = Except.ok content) :=
  ⟨by simp, rfl,
    update_source_tags_skips_missing "s\tl\t2\n" [⟨"m", false, ""⟩, ⟨"p", true, "t\tl\t1\n"⟩]
      ⟨"m", false, ""⟩ (by simp) rfl⟩

/-! ## Source locks (`SourceLock` in `src/types.rs`)

The filesystem is modelled as a duplicate-free list of existing file
paths.  `SourceLock::new` never waits: it is a total function of the
current filesystem state. -/

/-- The two shapes of a `SourceLock` handle. -/
inductive SourceLock where
  | locked (path : String)
  | alreadyLocked (path : String)
deriving DecidableEq

/-- The lock file name `<name>-<hash>.<ext>` used by `SourceLock::new`. -/
def lock_file_name (name hash ext : String) : String :=
  name ++ "-" ++ hash ++ "." ++ ext

/-- Model of `SourceLock::new`: observe an existing lock file, or create
the file and hold the lock.  Returns the handle and the new filesystem
state. -/
def sourceLockNew (fs : List String) (lockFile : String) : SourceLock × List String :=
  if lockFile ∈ fs then (SourceLock.alreadyLocked lockFile, fs)
  else (SourceLock.locked lockFile, lockFile :: fs)

/-- Model of `Drop for SourceLock`: a held lock removes its file (the code
checks `is_file` first and ignores the removal's result); an observed
lock changes nothing. -/
def sourceLockDrop (fs : List String) : SourceLock → List String
  | SourceLock.locked path => if path ∈ fs then fs.erase path else fs
  | SourceLock.alreadyLocked _ => fs

/-- C9.  Lock creation does not wait: when the lock file
`<locks_dir>/<name>-<hash>.<ext>` exists it returns an `AlreadyLocked`
handle and leaves the filesystem unchanged; otherwise it creates the file
and returns a `Locked` handle.  Dropping a `Locked` handle removes the
lock file; dropping an `AlreadyLocked` handle changes nothing. -/
theorem sourceLock_spec (fs : List String) (name hash ext : String) (hnd : fs.Nodup) :
    (lock_file_name name hash ext ∈ fs →
        sourceLockNew fs (lock_file_name name hash ext)
          = (SourceLock.alreadyLocked (lock_file_name name hash ext), fs))
      ∧ (lock_file_name name hash ext ∉ fs →
          sourceLockNew fs (lock_file_name name hash ext)
              = (SourceLock.locked (lock_file_name name hash ext),
                  lock_file_name name hash ext :: fs)
            ∧ lock_file_name name hash ext ∈ (sourceLockNew fs (lock_file_name name hash ext)).2
            ∧ lock_file_name name hash ext
                ∉ sourceLockDrop (sourceLockNew fs (lock_file_name name hash ext)).2
                    (SourceLock.locked (lock_file_name name hash ext)))
      ∧ (∀ p, p ∉ sourceLockDrop fs (SourceLock.locked p))
      ∧ (∀ p, sourceLockDrop fs (SourceLock.alreadyLocked p) = fs) := by
  have hdrop : ∀ (fs2 : List String), fs2.Nodup →
      ∀ p, p ∉ sourceLockDrop fs2 (SourceLock.locked p) := by
    intro fs2 hnd2 p
    simp only [sourceLockDrop]
    by_cases hp : p ∈ fs2
    · rw [if_pos hp]
      exact hnd2.not_mem_erase
    · rw [if_neg hp]
      exact hp
  refine ⟨?_, ?_, hdrop fs hnd, fun _ => rfl⟩
  · intro hmem
    simp [sourceLockNew, hmem]
  · intro hmem
    refine ⟨by simp [sourceLockNew, hmem], by simp [sourceLockNew, hmem], ?_⟩
    have h2 : (sourceLockNew fs (lock_file_name name hash ext)).2
        = lock_file_name name hash ext :: fs := by
      simp [sourceLockNew, hmem]
    rw [h2]
    exact hdrop _ (List.nodup_cons.mpr ⟨hmem, hnd⟩) _

/-- Witness for C9 at a concrete input. -/
theorem sourceLock_spec_witness :
    (["other.vi"] : List String).Nodup
      ∧ ((lock_file_name "serde" "17" "vi" ∈ ["other.vi"] →
            sourceLockNew ["other.vi"] (lock_file_name "serde" "17" "vi")
              = (SourceLock.alreadyLocked (lock_file_name "serde" "17" "vi"), ["other.vi"]))
          ∧ (lock_file_name "serde" "17" "vi" ∉ ["other.vi"] →
              sourceLockNew ["other.vi"] (lock_file_name "serde" "17" "vi")
                  = (SourceLock.locked (lock_file_name "serde" "17" "vi"),
                      lock_file_name "serde" "17" "vi" :: ["other.vi"])
                ∧ lock_file_name "serde" "17" "vi"
                    ∈ (sourceLockNew ["other.vi"] (lock_file_name "serde" "17" "vi")).2
                ∧ lock_file_name "serde" "17" "vi"
                    ∉ sourceLockDrop
                        (sourceLockNew ["other.vi"] (lock_file_name "serde" "17" "vi")).2
                        (SourceLock.locked (lock_file_name "serde" "17" "vi")))
          ∧ (∀ p, p ∉ sourceLockDrop ["other.vi"] (SourceLock.locked p))
          ∧ (∀ p, sourceLockDrop ["other.vi"] (SourceLock.alreadyLocked p) = ["other.vi"])) :=
  ⟨by decide, sourceLock_spec ["other.vi"] "serde" "17" "vi" (by decide)⟩

/-! ## `SourceVersion::parse_from_id` (`src/types.rs`)

The id string is modelled as a character list; the semver parser of the
external `semver` crate is an opaque parameter `vparse`. -/

/-- The error cases of `parse_from_id`, tagged by which message the code
formats. -/
inductive IdParseErr where
  | noName (id : List Char)
  | noVersion (id : List Char)
  | badVersion (id : List Char)
deriving DecidableEq

/-- Model of `SourceVersion::parse_from_id`: split the id on `' '`, take
the first item as the name (erroring when absent), the second as the
version text (erroring when absent), and run the semver parser on it. -/
def parse_from_id {V : Type} (vparse : List Char → Option V) (id : List Char) :
    Except IdParseErr (List Char × V) :=
  let split := splitChar ' ' id
  match split.head? with
  | none => Except.error (IdParseErr.noName id)
  | some name =>
    match split[1]? with
    | none => Except.error (IdParseErr.noVersion id)
    | some version =>
      match vparse version with
      | some v => Except.ok (name, v)
      | none => Except.error (IdParseErr.badVersion id)

/-- The text between the first and the second space of `l` (up to the end
when there is no second space). -/
def betweenFirstSpaces (l : List Char) : List Char :=
  (((l.dropWhile (fun c => c ≠ ' '))).drop 1).takeWhile (fun c => c ≠ ' ')

theorem splitChar_head (sep : Char) (l : List Char) :
    (splitChar sep l).head? = some (l.takeWhile (fun c => c ≠ sep)) := by
  induction l with
  | nil => simp [splitChar]
  | cons c cs ih =>
    by_cases h : c = sep
    · simp [splitChar, h, List.takeWhile]
    · simp only [splitChar, if_neg h]
      rcases hsp : splitChar sep cs with _ | ⟨p, ps⟩
      · exact absurd hsp (splitChar_ne_nil sep cs)
      · rw [hsp] at ih
        simp only [List.head?] at ih
        simp only [List.head?, Option.some.injEq] at ih ⊢
        rw [List.takeWhile]
        simp [h, ih]

theorem splitChar_second (sep : Char) (l : List Char) :
    (splitChar sep l)[1]?
      = if sep ∈ l
          then some (((l.dropWhile (fun c => c ≠ sep)).drop 1).takeWhile (fun c => c ≠ sep))
          else none := by
  induction l with
  | nil => simp [splitChar]
  | cons c cs ih =>
    by_cases h : c = sep
    · subst h
      rw [if_pos (List.mem_cons_self c cs)]
      simp only [splitChar, ite_true, List.getElem?_cons_succ]
      rw [← List.head?_eq_getElem?, splitChar_head]
      have hdrop : (c :: cs).dropWhile (fun x => x ≠ c) = c :: cs := by
        rw [List.dropWhile_cons]
        simp
      rw [hdrop]
      simp
    · have hmem : (sep ∈ c :: cs) ↔ (sep ∈ cs) := by
        constructor
        · intro hm
          rcases List.mem_cons.mp hm with hm' | hm'
          · exact absurd hm'.symm h
          · exact hm'
        · exact fun hm => List.mem_cons_of_mem c hm
      have hdrop : (c :: cs).dropWhile (fun x => x ≠ sep) = cs.dropWhile (fun x => x ≠ sep) := by
        rw [List.dropWhile_cons]
        simp [h]
      simp only [splitChar, if_neg h]
      rcases hsp : splitChar sep cs with _ | ⟨p, ps⟩
      · exact absurd hsp (splitChar_ne_nil sep cs)
      · rw [hsp] at ih
        simp only [List.getElem?_cons_succ] at ih ⊢
        rw [hdrop]
        by_cases hs : sep ∈ cs
        · rw [if_pos (hmem.mpr hs)]
          rw [if_pos hs] at ih
          exact ih
        · rw [if_neg (fun hm => hs (hmem.mp hm))]
          rw [if_neg hs] at ih
          exact ih

theorem parse_from_id_eq {V : Type} (vparse : List Char → Option V) (id : List Char) :
    parse_from_id vparse id
      = if ' ' ∈ id then
          match vparse (betweenFirstSpaces id) with
          | some v => Except.ok (id.takeWhile (fun c => c ≠ ' '), v)
          | none => Except.error (IdParseErr.badVersion id)
        else Except.error (IdParseErr.noVersion id) := by
  unfold parse_from_id betweenFirstSpaces
  simp only [splitChar_head, splitChar_second]
  by_cases hsp : ' ' ∈ id
  · rw [if_pos hsp, if_pos hsp]
  · rw [if_neg hsp, if_neg hsp]

/-- C10.  `parse_from_id` never returns its "Couldn't extract name" error
(splitting any string on `' '` yields at least one item); it returns `Ok`
exactly when the input contains a space and the text between the first
and second space parses as a semantic version, and the returned name is
the text before the first space. -/
theorem parse_from_id_spec {V : Type} (vparse : List Char → Option V) (id : List Char) :
    (∀ s : List Char, parse_from_id vparse id ≠ Except.error (IdParseErr.noName s))
      ∧ ((∃ r, parse_from_id vparse id = Except.ok r)
            ↔ ' ' ∈ id ∧ ∃ v, vparse (betweenFirstSpaces id) = some v)
      ∧ ∀ r, parse_from_id vparse id = Except.ok r →
          r.1 = id.takeWhile (fun c => c ≠ ' ')
            ∧ vparse (betweenFirstSpaces id) = some r.2 := by
  rw [parse_from_id_eq]
  by_cases hsp : ' ' ∈ id
  · rw [if_pos hsp]
    rcases hv : vparse (betweenFirstSpaces id) with _ | v
    · refine ⟨by simp, ?_, by simp⟩
      constructor
      · rintro ⟨r, hr⟩
        simp at hr
      · rintro ⟨-, v, hv'⟩
        simp at hv'
    · refine ⟨by simp, ?_, ?_⟩
      · exact ⟨fun _ => ⟨hsp, v, rfl⟩, fun _ => ⟨_, rfl⟩⟩
      · intro r hr
        simp only [Except.ok.injEq] at hr
        subst hr
        exact ⟨rfl, rfl⟩
  · rw [if_neg hsp]
    refine ⟨by simp, ?_, by simp⟩
    constructor
    · rintro ⟨r, hr⟩
      simp at hr
    · rintro ⟨hmem, -⟩
      exact absurd hmem hsp

/-! ## The re-export scanner (`find_reexported_crates` in `src/tags.rs`) -/

/-- Model of Rust's `str::trim_matches` with a one-character pattern:
remove every occurrence of `c` from both ends. -/
def trimChar (c : Char) (l : List Char) : List Char :=
  ((l.dropWhile (fun x => x = c)).reverse.dropWhile (fun x => x = c)).reverse

/-- The text up to the first occurrence of the substring `"::"`, i.e. the
first element of Rust's `split("::")`. -/
def upToColonColon : List Char → List Char
  | ':' :: ':' :: _ => []
  | c :: rest => c :: upToColonColon rest
  | [] => []

/-- An `extern crate` record of the scanner: the crate name and the name
it is visible under. -/
structure ExternCrate where
  name : List Char
  as_name : List Char
deriving DecidableEq

/-- Insertion into a hash set, modelled membership-faithfully on a list. -/
def insertIfAbsent {α : Type} [DecidableEq α] (x : α) (l : List α) : List α :=
  if x ∈ l then l else l ++ [x]

/-- The items of a line as the scanner computes them: trim `';'` from
both ends, then split on the single space character (keeping empty
pieces, as Rust's `split(' ')` does). -/
def lineItems (line : List Char) : List (List Char) :=
  splitChar ' ' (trimChar ';' line)

/-- The leading path segment recorded from a `pub use` line, when the
line's items match the scanner's `pub use` pattern. -/
def pubUseMod (line : List Char) : Option (List Char) :=
  let items := lineItems line
  if items.length < 3 then none
  else if items.getD 0 [] = "pub".data ∧ items.getD 1 [] = "use".data then
    some (upToColonColon (items.getD 2 []))
  else none

/-- The `ExternCrate` record extracted from an `extern crate` line, when
the line's items match one of the scanner's two `extern crate` shapes. -/
def externCrateOf (line : List Char) : Option ExternCrate :=
  let items := lineItems line
  if items.length < 3 then none
  else if items.getD 0 [] = "extern".data ∧ items.getD 1 [] = "crate".data then
    if items.length = 3 then
      some ⟨trimChar '"' (items.getD 2 []), items.getD 2 []⟩
    else if items.length = 5 ∧ items.getD 3 [] = "as".data then
      some ⟨trimChar '"' (items.getD 2 []), items.getD 4 []⟩
    else none
  else none

/-- The two collections built by the scanner's line loop. -/
structure ScanState where
  pubUses : List (List Char)
  externCrates : List ExternCrate
deriving DecidableEq

/-- One iteration of the scanner's line loop. -/
def scanLine (st : ScanState) (line : List Char) : ScanState :=
  let st1 :=
    match pubUseMod line with
    | some m => { st with pubUses := insertIfAbsent m st.pubUses }
    | none => st
  match externCrateOf line with
  | some ec => { st1 with externCrates := insertIfAbsent ec st1.externCrates }
  | none => st1

/-- The scanner's line loop over all lines of `lib.rs`. -/
def scanLines (lines : List (List Char)) : ScanState :=
  lines.foldl scanLine ⟨[], []⟩

/-- Model of `find_reexported_crates`: the names of the `extern crate`
records whose visible name occurs in `pub_uses` (the final loop of the
code; the hash-set iteration order is abstracted by the insertion
order, which does not affect membership).  A missing `lib.rs` yields the
empty list. -/
def find_reexported_crates (libFile : Option (List Char)) : List (List Char) :=
  match libFile with
  | none => []
  | some contents =>
    let st := scanLines (linesOfChars contents)
    st.externCrates.filterMap
      (fun ec => if ec.as_name ∈ st.pubUses then some ec.name else none)

/-- Modelled from the spec (§4.7): ASCII whitespace characters. -/
def isAsciiWs (c : Char) : Bool :=
  c = ' ' || c = '\t' || c = '\n' || c = '\r' || c = '\x0b' || c = '\x0c'

/-- Modelled from the spec (§4.7): the items of a line obtained by
"splitting on ASCII whitespace and stripping a trailing `;`". -/
def specLineItems (line : List Char) : List (List Char) :=
  let line := if line.getLast? = some ';' then line.dropLast else line
  (List.splitOnP isAsciiWs line).filter (fun t => t ≠ [])

/-- Modelled from the spec (§4.7): the `pub use` extraction over
whitespace-split items. -/
def pubUseModSpec (line : List Char) : Option (List Char) :=
  let items := specLineItems line
  if items.length < 3 then none
  else if items.getD 0 [] = "pub".data ∧ items.getD 1 [] = "use".data then
    some (upToColonColon (items.getD 2 []))
  else none

/-- Modelled from the spec (§4.7): the `extern crate` extraction over
whitespace-split items. -/
def externCrateOfSpec (line : List Char) : Option ExternCrate :=
  let items := specLineItems line
  if items.length < 3 then none
  else if items.getD 0 [] = "extern".data ∧ items.getD 1 [] = "crate".data then
    if items.length = 3 then
      some ⟨trimChar '"' (items.getD 2 []), items.getD 2 []⟩
    else if items.length = 5 ∧ items.getD 3 [] = "as".data then
      some ⟨trimChar '"' (items.getD 2 []), items.getD 4 []⟩
    else none
  else none

/-- Modelled from the spec (§4.7): the scanner's loop with
whitespace-split items. -/
def scanLineSpec (st : ScanState) (line : List Char) : ScanState :=
  let st1 :=
    match pubUseModSpec line with
    | some m => { st with pubUses := insertIfAbsent m st.pubUses }
    | none => st
  match externCrateOfSpec line with
  | some ec => { st1 with externCrates := insertIfAbsent ec st1.externCrates }
  | none => st1

/-- Modelled from the spec (§4.7): the whole scan with items obtained by
splitting on ASCII whitespace, as the spec words it. -/
def find_reexported_crates_spec (libFile : Option (List Char)) : List (List Char) :=
  match libFile with
  | none => []
  | some contents =>
    let st := (linesOfChars contents).foldl scanLineSpec ⟨[], []⟩
    st.externCrates.filterMap
      (fun ec => if ec.as_name ∈ st.pubUses then some ec.name else none)

/-- Counterexample to C5 as stated: the code splits lines on the single
space character, not on ASCII whitespace.  A `pub use` line whose `pub`
and `use` are separated by a tab is recognised by the spec's
whitespace-splitting scan but not by the code. -/
theorem find_reexported_crates_counterexample :
    find_reexported_crates (some ("pub\tuse x::y;\nextern crate x;".data)) = []
      ∧ ("x".data : List Char)
          ∈ find_reexported_crates_spec (some ("pub\tuse x::y;\nextern crate x;".data)) := by
  constructor
  · decide
  · decide

theorem mem_insertIfAbsent {α : Type} [DecidableEq α] {x y : α} {l : List α} :
    x ∈ insertIfAbsent y l ↔ x ∈ l ∨ x = y := by
  unfold insertIfAbsent
  by_cases h : y ∈ l
  · rw [if_pos h]
    constructor
    · exact Or.inl
    · rintro (hx | rfl)
      · exact hx
      · exact h
  · rw [if_neg h]
    simp

theorem scanLine_pubUses (st : ScanState) (line : List Char) {x : List Char} :
    x ∈ (scanLine st line).pubUses ↔ x ∈ st.pubUses ∨ pubUseMod line = some x := by
  unfold scanLine
  rcases hp : pubUseMod line with _ | m <;> rcases he : externCrateOf line with _ | ec <;>
    simp [mem_insertIfAbsent, eq_comm]

theorem scanLine_externCrates (st : ScanState) (line : List Char) {ec : ExternCrate} :
    ec ∈ (scanLine st line).externCrates
      ↔ ec ∈ st.externCrates ∨ externCrateOf line = some ec := by
  unfold scanLine
  rcases hp : pubUseMod line with _ | m <;> rcases he : externCrateOf line with _ | ec' <;>
    simp [mem_insertIfAbsent, eq_comm]

theorem scanLines_foldl_pubUses (lines : List (List Char)) :
    ∀ (st : ScanState) (x : List Char),
      (x ∈ (lines.foldl scanLine st).pubUses
        ↔ x ∈ st.pubUses ∨ ∃ l ∈ lines, pubUseMod l = some x) := by
  induction lines with
  | nil => simp
  | cons a ls ih =>
    intro st x
    simp only [List.foldl_cons]
    rw [ih, scanLine_pubUses]
    simp only [List.mem_cons]
    constructor
    · rintro ((h | h) | ⟨l, hl, hx⟩)
      · exact Or.inl h
      · exact Or.inr ⟨a, Or.inl rfl, h⟩
      · exact Or.inr ⟨l, Or.inr hl, hx⟩
    · rintro (h | ⟨l, rfl | hl, hx⟩)
      · exact Or.inl (Or.inl h)
      · exact Or.inl (Or.inr hx)
      · exact Or.inr ⟨l, hl, hx⟩

theorem scanLines_foldl_externCrates (lines : List (List Char)) :
    ∀ (st : ScanState) (ec : ExternCrate),
      (ec ∈ (lines.foldl scanLine st).externCrates
        ↔ ec ∈ st.externCrates ∨ ∃ l ∈ lines, externCrateOf l = some ec) := by
  induction lines with
  | nil => simp
  | cons a ls ih =>
    intro st ec
    simp only [List.foldl_cons]
    rw [ih, scanLine_externCrates]
    simp only [List.mem_cons]
    constructor
    · rintro ((h | h) | ⟨l, hl, hx⟩)
      · exact Or.inl h
      · exact Or.inr ⟨a, Or.inl rfl, h⟩
      · exact Or.inr ⟨l, Or.inr hl, hx⟩
    · rintro (h | ⟨l, rfl | hl, hx⟩)
      · exact Or.inl (Or.inl h)
      · exact Or.inl (Or.inr hx)
      · exact Or.inr ⟨l, hl, hx⟩

/-- C5 (amended).  The scanner classifies `d` as publicly re-exported
from a present `lib.rs` iff scanning its lines — trimming `';'` from both
line ends and splitting on the single space character — yields an
`extern crate` record whose visible name was collected as the leading
path segment of some `pub use` line and whose crate name equals `d`; a
missing `lib.rs` yields the empty set. -/
theorem find_reexported_crates_correct (contents : List Char) (d : List Char) :
    find_reexported_crates none = []
      ∧ (d ∈ find_reexported_crates (some contents)
          ↔ ∃ ec : ExternCrate,
              (∃ l ∈ linesOfChars contents, externCrateOf l = some ec)
                ∧ (∃ l ∈ linesOfChars contents, pubUseMod l = some ec.as_name)
                ∧ ec.name = d) := by
  refine ⟨rfl, ?_⟩
  show d ∈ (scanLines (linesOfChars contents)).externCrates.filterMap
      (fun ec => if ec.as_name ∈ (scanLines (linesOfChars contents)).pubUses
        then some ec.name else none) ↔ _
  rw [List.mem_filterMap]
  constructor
  · rintro ⟨ec, hmem, hcond⟩
    by_cases hin : ec.as_name ∈ (scanLines (linesOfChars contents)).pubUses
    · rw [if_pos hin] at hcond
      have hname : ec.name = d := by simpa using hcond
      have hec := (scanLines_foldl_externCrates (linesOfChars contents) ⟨[], []⟩ ec).mp hmem
      have hpu := (scanLines_foldl_pubUses (linesOfChars contents) ⟨[], []⟩ ec.as_name).mp hin
      simp only [show (⟨[], []⟩ : ScanState).externCrates = [] from rfl,
        show (⟨[], []⟩ : ScanState).pubUses = [] from rfl, List.not_mem_nil, false_or] at hec hpu
      exact ⟨ec, hec, hpu, hname⟩
    · rw [if_neg hin] at hcond
      exact absurd hcond (by simp)
  · rintro ⟨ec, ⟨l, hl, hec⟩, ⟨l', hl', hpu⟩, hname⟩
    refine ⟨ec, ?_, ?_⟩
    · exact (scanLines_foldl_externCrates (linesOfChars contents) ⟨[], []⟩ ec).mpr
        (Or.inr ⟨l, hl, hec⟩)
    · have hin : ec.as_name ∈ (scanLines (linesOfChars contents)).pubUses :=
        (scanLines_foldl_pubUses (linesOfChars contents) ⟨[], []⟩ ec.as_name).mpr
          (Or.inr ⟨l', hl', hpu⟩)
      rw [if_pos hin, hname]

/-! ## The dependency graph (`DepTree` in `src/types.rs`)

Sources are identified by their dense index; `sources : List Bool`
records for each allocated id whether its slot holds `Some` source, and
the adjacency vectors mirror the `Vec<Option<Vec<SourceId>>>` fields of
the Rust struct. -/

/-- The dependency graph: roots, source slots, and the two adjacency
vectors. -/
structure DepTree where
  roots : List Nat
  sources : List Bool
  dependencies : List (Option (List Nat))
  parents : List (Option (List Nat))
deriving DecidableEq

/-- `DepTree::new`. -/
def DepTree.new : DepTree := ⟨[], [], [], []⟩

/-- `DepTree::new_source`: push empty slots and return the fresh id. -/
def new_source (t : DepTree) : DepTree × Nat :=
  ({ t with
      sources := t.sources ++ [false],
      dependencies := t.dependencies ++ [none],
      parents := t.parents ++ [none] },
    t.sources.length)

/-- The `parents[dep].push(src_id)` step of `DepTree::set_source`,
creating the vector when the slot is still `None`. -/
def addParent (parents : List (Option (List Nat))) (dep srcId : Nat) :
    List (Option (List Nat)) :=
  parents.set dep (some ((parents.getD dep none).getD [] ++ [srcId]))

/-- `DepTree::set_source`: store the source, record its dependency list
(when non-empty) and the reverse edges. -/
def set_source (t : DepTree) (id : Nat) (deps : List Nat) : DepTree :=
  let t1 := { t with sources := t.sources.set id true }
  if deps.isEmpty then t1
  else
    { t1 with
        parents := deps.foldl (fun ps dep => addParent ps dep id) t1.parents,
        dependencies := t1.dependencies.set id (some deps) }

/-- The parents adjacency list of `id` (empty for an unset slot, as the
`if let Some` in the code reads it). -/
def parentsOf (t : DepTree) (id : Nat) : List Nat :=
  (t.parents.getD id none).getD []

/-- The dependencies adjacency list of `id`. -/
def depsOf (t : DepTree) (id : Nat) : List Nat :=
  (t.dependencies.getD id none).getD []

/-- Whether the slot of `id` holds a source (`sources[id].is_some()`). -/
def srcPresent (t : DepTree) (id : Nat) : Bool :=
  t.sources.getD id false

/-! ### `DepTree::ancestors` (cycle-safe DFS with a path-scoped stack)

`ancestors_internal` pushes the current id on `dep_graph`, walks the
parents that are not on the stack, and pops on exit.  The recursion is
modelled with explicit fuel, consumed once per entered node; `none`
means fuel exhaustion, which the sufficiency theorem rules out for the
fuel the entry point supplies. -/

/-- One layer of the DFS: process a parents list against the current
stack, entering fresh present nodes through `next`. -/
def avStep (t : DepTree) (next : List Nat → List Nat → Option (List Nat)) :
    List Nat → List Nat → Option (List Nat)
  | [], _ => some []
  | p :: rest, stack =>
    if p ∈ stack then avStep t next rest stack
    else if srcPresent t p then
      match next (parentsOf t p) (p :: stack) with
      | none => none
      | some sub =>
        match avStep t next rest stack with
        | none => none
        | some rst => some (p :: (sub ++ rst))
    else avStep t next rest stack

/-- The fuelled DFS: entering a node consumes one unit of fuel. -/
def avList (t : DepTree) : Nat → List Nat → List Nat → Option (List Nat)
  | 0 => avStep t (fun _ _ => none)
  | f + 1 => avStep t (avList t f)

/-- One top-level `ancestors_internal(src, …)` call: the stack starts
with `src` pushed, and the loop walks `parents[src]`.  The supplied fuel
covers any simple descent (at most one unit per present source). -/
def ancestorsOne (t : DepTree) (s : Nat) : Option (List Nat) :=
  avList t t.sources.length (parentsOf t s) [s]

/-- The loop of `DepTree::ancestors` over the given sources, accumulating
the collected ancestors in order. -/
def ancestorsAll (t : DepTree) : List Nat → Option (List Nat)
  | [] => some []
  | s :: rest =>
    match ancestorsOne t s with
    | none => none
    | some r =>
      match ancestorsAll t rest with
      | none => none
      | some rs => some (r ++ rs)

/-- `unique_sources`: sort by id and remove adjacent duplicates. -/
def uniqueIds (l : List Nat) : List Nat :=
  dedupAdj (List.insertionSort (fun a b : Nat => a ≤ b) l)

/-- `DepTree::ancestors`: collect and deduplicate. -/
def ancestors (t : DepTree) (srcs : List Nat) : Option (List Nat) :=
  (ancestorsAll t srcs).map uniqueIds

/-- The planner step of `update_tags` (`src/tags.rs` lines 30–33): the
ancestors of the dirty sources, extended with the dirty sources
themselves, deduplicated by id. -/
def selectedSources (t : DepTree) (dirty : List Nat) : Option (List Nat) :=
  (ancestorsAll t dirty).map (fun anc => uniqueIds (anc ++ dirty))

/-- The number of present sources not on the stack: the DFS can enter at
most this many nodes before every parent is on the stack. -/
def freshCount (t : DepTree) (stack : List Nat) : Nat :=
  ((Finset.range t.sources.length).filter
    (fun i => srcPresent t i = true ∧ i ∉ stack)).card

theorem srcPresent_lt {t : DepTree} {p : Nat} (h : srcPresent t p = true) :
    p < t.sources.length := by
  by_contra hlt
  push_neg at hlt
  unfold srcPresent at h
  rw [List.getD_eq_getElem?_getD, List.getElem?_eq_none hlt] at h
  simp at h

theorem freshCount_pos {t : DepTree} {p : Nat} {stack : List Nat}
    (hp : srcPresent t p = true) (hst : p ∉ stack) : 0 < freshCount t stack := by
  apply Finset.card_pos.mpr
  exact ⟨p, Finset.mem_filter.mpr ⟨Finset.mem_range.mpr (srcPresent_lt hp), hp, hst⟩⟩

theorem freshCount_cons {t : DepTree} {p : Nat} {stack : List Nat}
    (hp : srcPresent t p = true) (hst : p ∉ stack) :
    freshCount t (p :: stack) + 1 = freshCount t stack := by
  unfold freshCount
  have hset : (Finset.range t.sources.length).filter
        (fun i => srcPresent t i = true ∧ i ∉ p :: stack)
      = ((Finset.range t.sources.length).filter
          (fun i => srcPresent t i = true ∧ i ∉ stack)).erase p := by
    ext i
    simp only [Finset.mem_filter, Finset.mem_erase, List.mem_cons]
    constructor
    · rintro ⟨hr, hpres, hni⟩
      push_neg at hni
      exact ⟨hni.1, hr, hpres, hni.2⟩
    · rintro ⟨hne, hr, hpres, hni⟩
      exact ⟨hr, hpres, by push_neg; exact ⟨hne, hni⟩⟩
  rw [hset, Finset.card_erase_of_mem
    (Finset.mem_filter.mpr ⟨Finset.mem_range.mpr (srcPresent_lt hp), hp, hst⟩)]
  have := freshCount_pos hp hst
  unfold freshCount at this
  omega

theorem freshCount_le (t : DepTree) (stack : List Nat) :
    freshCount t stack ≤ t.sources.length := by
  calc freshCount t stack ≤ (Finset.range t.sources.length).card :=
        Finset.card_filter_le _ _
    _ = t.sources.length := Finset.card_range _

/-- Fuel sufficiency: the DFS never exhausts fuel at least as large as
the number of present sources off the stack.  In particular it
terminates on every graph, cyclic or not. -/
theorem avList_isSome (t : DepTree) :
    ∀ (fuel : Nat) (ps stack : List Nat), freshCount t stack ≤ fuel →
      (avList t fuel ps stack).isSome := by
  intro fuel
  induction fuel with
  | zero =>
    intro ps
    induction ps with
    | nil =>
      intro stack h
      simp [avList, avStep]
    | cons p rest ihp =>
      intro stack h
      simp only [avList, avStep] at ihp ⊢
      by_cases hst : p ∈ stack
      · rw [if_pos hst]
        exact ihp stack h
      · rw [if_neg hst]
        by_cases hpr : srcPresent t p
        · exact absurd h (by have := freshCount_pos hpr hst; omega)
        · rw [if_neg hpr]
          exact ihp stack h
  | succ f ihf =>
    intro ps
    induction ps with
    | nil =>
      intro stack h
      simp [avList, avStep]
    | cons p rest ihp =>
      intro stack h
      simp only [avList, avStep] at ihp ⊢
      by_cases hst : p ∈ stack
      · rw [if_pos hst]
        exact ihp stack h
      · rw [if_neg hst]
        by_cases hpr : srcPresent t p
        · rw [if_pos hpr]
          have h1 : (avList t f (parentsOf t p) (p :: stack)).isSome := by
            apply ihf
            have := freshCount_cons hpr hst
            omega
          have h2 : (avStep t (avList t f) rest stack).isSome := ihp stack h
          rcases Option.isSome_iff_exists.mp h1 with ⟨sub, hsub⟩
          rcases Option.isSome_iff_exists.mp h2 with ⟨rst, hrst⟩
          rw [show avList t f = avList t f from rfl, hsub, hrst]
          rfl
        · rw [if_neg hpr]
          exact ihp stack h

/-- A walk of zero or more `parents` edges from `p`, through present
sources off the `stack`, repeating no vertex and not returning to `p`;
it ends at `v` (at `p` itself when the walk is empty). -/
def AvoidPath (t : DepTree) (stack : List Nat) (p v : Nat) : Prop :=
  ∃ l : List Nat,
    List.Chain (fun a b => b ∈ parentsOf t a) p l
      ∧ (∀ x ∈ l, srcPresent t x = true ∧ x ∉ stack)
      ∧ (p :: l).Nodup
      ∧ l.getLastD p = v

/-- What the DFS collects: exactly the endpoints of repetition-free
walks that start by entering a fresh present node of the pending list. -/
theorem avList_mem (t : DepTree) :
    ∀ (fuel : Nat) (ps stack r : List Nat), avList t fuel ps stack = some r →
      ∀ v, (v ∈ r ↔
        ∃ p, p ∈ ps ∧ p ∉ stack ∧ srcPresent t p = true ∧ AvoidPath t stack p v) := by
  intro fuel
  induction fuel with
  | zero =>
    intro ps
    induction ps with
    | nil =>
      intro stack r hr v
      simp only [avList, avStep, Option.some.injEq] at hr
      subst hr
      simp
    | cons p rest ihp =>
      intro stack r hr v
      simp only [avList, avStep] at ihp hr
      by_cases hst : p ∈ stack
      · rw [if_pos hst] at hr
        rw [ihp stack r hr v]
        constructor
        · rintro ⟨q, hq, hrest⟩
          exact ⟨q, List.mem_cons_of_mem p hq, hrest⟩
        · rintro ⟨q, hq, hqst, hrest⟩
          rcases List.mem_cons.mp hq with rfl | hq'
          · exact absurd hst hqst
          · exact ⟨q, hq', hqst, hrest⟩
      · rw [if_neg hst] at hr
        by_cases hpr : srcPresent t p
        · rw [if_pos hpr] at hr
          simp at hr
        · rw [if_neg hpr] at hr
          rw [ihp stack r hr v]
          constructor
          · rintro ⟨q, hq, hrest⟩
            exact ⟨q, List.mem_cons_of_mem p hq, hrest⟩
          · rintro ⟨q, hq, hqst, hqpr, hrest⟩
            rcases List.mem_cons.mp hq with rfl | hq'
            · exact absurd hqpr (by simpa using hpr)
            · exact ⟨q, hq', hqst, hqpr, hrest⟩
  | succ f ihf =>
    intro ps
    induction ps with
    | nil =>
      intro stack r hr v
      simp only [avList, avStep, Option.some.injEq] at hr
      subst hr
      simp
    | cons p rest ihp =>
      intro stack r hr v
      simp only [avList, avStep] at ihp hr
      by_cases hst : p ∈ stack
      · rw [if_pos hst] at hr
        rw [ihp stack r hr v]
        constructor
        · rintro ⟨q, hq, hrest⟩
          exact ⟨q, List.mem_cons_of_mem p hq, hrest⟩
        · rintro ⟨q, hq, hqst, hrest⟩
          rcases List.mem_cons.mp hq with rfl | hq'
          · exact absurd hst hqst
          · exact ⟨q, hq', hqst, hrest⟩
      · rw [if_neg hst] at hr
        by_cases hpr : srcPresent t p
        · rw [if_pos hpr] at hr
          rcases hsub : avList t f (parentsOf t p) (p :: stack) with _ | sub
          · rw [hsub] at hr
            simp at hr
          · rw [hsub] at hr
            rcases hrst : avStep t (avList t f) rest stack with _ | rst
            · rw [hrst] at hr
              simp at hr
            · rw [hrst] at hr
              simp only [Option.some.injEq] at hr
              subst hr
              have ihsub := ihf (parentsOf t p) (p :: stack) sub hsub
              have ihrst := ihp stack rst hrst
              constructor
              · intro hv
                rcases List.mem_cons.mp hv with rfl | hv'
                · refine ⟨v, List.mem_cons_self v rest, hst, hpr,
                    [], List.Chain.nil, by simp, by simp, rfl⟩
                · rcases List.mem_append.mp hv' with hvsub | hvrst
                  · rcases (ihsub v).mp hvsub with ⟨q, hq, hqst, hqpr, l, hch, hel, hnd, hlast⟩
                    refine ⟨p, List.mem_cons_self p rest, hst, hpr, q :: l,
                      List.Chain.cons hq hch, ?_, ?_, ?_⟩
                    · intro x hx
                      rcases List.mem_cons.mp hx with rfl | hx'
                      · exact ⟨hqpr, fun hxs => hqst (List.mem_cons_of_mem p hxs)⟩
                      · exact ⟨(hel x hx').1,
                          fun hxs => (hel x hx').2 (List.mem_cons_of_mem p hxs)⟩
                    · refine List.nodup_cons.mpr ⟨?_, hnd⟩
                      intro hpmem
                      rcases List.mem_cons.mp hpmem with hpq | hpl
                      · exact hqst (hpq ▸ List.mem_cons_self p stack)
                      · exact (hel p hpl).2 (List.mem_cons_self p stack)
                    · rw [List.getLastD_cons]
                      exact hlast
                  · rcases (ihrst v).mp hvrst with ⟨q, hq, hrest⟩
                    exact ⟨q, List.mem_cons_of_mem p hq, hrest⟩
              · rintro ⟨q, hq, hqst, hqpr, l, hch, hel, hnd, hlast⟩
                rcases List.mem_cons.mp hq with rfl | hq'
                · cases l with
                  | nil =>
                    simp only [List.getLastD] at hlast
                    subst hlast
                    exact List.mem_cons_self _ _
                  | cons q' l2 =>
                    rcases List.chain_cons.mp hch with ⟨hq', hch'⟩
                    have hq'el := hel q' (List.mem_cons_self q' l2)
                    have hq'ne : q' ≠ q := by
                      intro hqq
                      have := List.nodup_cons.mp hnd
                      exact this.1 (hqq ▸ List.mem_cons_self q' l2)
                    have hpnotin : ∀ x ∈ q' :: l2, x ≠ q := by
                      intro x hx hxq
                      exact (List.nodup_cons.mp hnd).1 (hxq ▸ hx)
                    have hinner : AvoidPath t (q :: stack) q' v := by
                      refine ⟨l2, hch', ?_, (List.nodup_cons.mp hnd).2, ?_⟩
                      · intro x hx
                        have hxel := hel x (List.mem_cons_of_mem q' hx)
                        refine ⟨hxel.1, ?_⟩
                        intro hxs
                        rcases List.mem_cons.mp hxs with rfl | hxs'
                        · exact hpnotin x (List.mem_cons_of_mem q' hx) rfl
                        · exact hxel.2 hxs'
                      · rw [List.getLastD_cons] at hlast
                        exact hlast
                    have hv : v ∈ sub := (ihsub v).mpr
                      ⟨q', hq', ?_, hq'el.1, hinner⟩
                    · exact List.mem_cons_of_mem q (List.mem_append_left rst hv)
                    · intro hxs
                      rcases List.mem_cons.mp hxs with h1 | h2
                      · exact hq'ne h1
                      · exact hq'el.2 h2
                · have hv : v ∈ rst := (ihrst v).mpr ⟨q, hq', hqst, hqpr, l, hch, hel, hnd, hlast⟩
                  exact List.mem_cons_of_mem p (List.mem_append_right sub hv)
        · rw [if_neg hpr] at hr
          rw [ihp stack r hr v]
          constructor
          · rintro ⟨q, hq, hrest⟩
            exact ⟨q, List.mem_cons_of_mem p hq, hrest⟩
          · rintro ⟨q, hq, hqst, hqpr, hrest⟩
            rcases List.mem_cons.mp hq with rfl | hq'
            · exact absurd hqpr (by simpa using hpr)
            · exact ⟨q, hq', hqst, hqpr, hrest⟩

/-- A nonempty repetition-free walk along `parents` edges from `s`
through present sources, ending at `v`: what one top-level DFS descent
from `s` can reach. -/
def SimpleReach (t : DepTree) (s v : Nat) : Prop :=
  ∃ l : List Nat, l ≠ []
    ∧ List.Chain (fun a b => b ∈ parentsOf t a) s l
    ∧ (∀ x ∈ l, srcPresent t x = true)
    ∧ (s :: l).Nodup
    ∧ l.getLastD s = v

theorem ancestorsOne_isSome (t : DepTree) (s : Nat) : (ancestorsOne t s).isSome :=
  avList_isSome t t.sources.length (parentsOf t s) [s] (freshCount_le t [s])

theorem ancestorsOne_mem (t : DepTree) (s : Nat) (r : List Nat)
    (hr : ancestorsOne t s = some r) (v : Nat) :
    v ∈ r ↔ SimpleReach t s v := by
  rw [avList_mem t t.sources.length (parentsOf t s) [s] r hr v]
  constructor
  · rintro ⟨p, hp, hpst, hppr, l, hch, hel, hnd, hlast⟩
    refine ⟨p :: l, by simp, List.Chain.cons hp hch, ?_, ?_, ?_⟩
    · intro x hx
      rcases List.mem_cons.mp hx with rfl | hx'
      · exact hppr
      · exact (hel x hx').1
    · refine List.nodup_cons.mpr ⟨?_, hnd⟩
      intro hsmem
      rcases List.mem_cons.mp hsmem with h1 | h2
      · exact hpst (by simp [h1])
      · exact (hel s h2).2 (by simp)
    · rw [List.getLastD_cons]
      exact hlast
  · rintro ⟨l, hne, hch, hel, hnd, hlast⟩
    cases l with
    | nil => exact absurd rfl hne
    | cons p l2 =>
      rcases List.chain_cons.mp hch with ⟨hp, hch'⟩
      have hs : s ∉ p :: l2 := (List.nodup_cons.mp hnd).1
      refine ⟨p, hp, ?_, hel p (List.mem_cons_self p l2), l2, hch', ?_,
        (List.nodup_cons.mp hnd).2, ?_⟩
      · intro hmem
        rcases List.mem_cons.mp hmem with h1 | h2
        · exact hs (by simp [h1.symm])
        · simp at h2
      · intro x hx
        refine ⟨hel x (List.mem_cons_of_mem p hx), ?_⟩
        intro hxs
        rcases List.mem_cons.mp hxs with h1 | h2
        · exact hs (h1 ▸ List.mem_cons_of_mem p hx)
        · simp at h2
      · rw [List.getLastD_cons] at hlast
        exact hlast

theorem ancestorsAll_isSome (t : DepTree) : ∀ srcs, (ancestorsAll t srcs).isSome := by
  intro srcs
  induction srcs with
  | nil => simp [ancestorsAll]
  | cons s rest ih =>
    obtain ⟨r, hr⟩ := Option.isSome_iff_exists.mp (ancestorsOne_isSome t s)
    obtain ⟨rs, hrs⟩ := Option.isSome_iff_exists.mp ih
    simp [ancestorsAll, hr, hrs]

theorem ancestorsAll_mem (t : DepTree) :
    ∀ (srcs R : List Nat), ancestorsAll t srcs = some R →
      ∀ v, (v ∈ R ↔ ∃ s ∈ srcs, SimpleReach t s v) := by
  intro srcs
  induction srcs with
  | nil =>
    intro R hR v
    simp only [ancestorsAll, Option.some.injEq] at hR
    subst hR
    simp
  | cons s rest ih =>
    intro R hR v
    simp only [ancestorsAll] at hR
    rcases hr : ancestorsOne t s with _ | r
    · rw [hr] at hR
      simp at hR
    · rw [hr] at hR
      rcases hrs : ancestorsAll t rest with _ | rs
      · rw [hrs] at hR
        simp at hR
      · rw [hrs] at hR
        simp only [Option.some.injEq] at hR
        subst hR
        rw [List.mem_append, ancestorsOne_mem t s r hr v, ih rs hrs v]
        constructor
        · rintro (h | ⟨q, hq, hreach⟩)
          · exact ⟨s, List.mem_cons_self s rest, h⟩
          · exact ⟨q, List.mem_cons_of_mem s hq, hreach⟩
        · rintro ⟨q, hq, hreach⟩
          rcases List.mem_cons.mp hq with rfl | hq'
          · exact Or.inl hreach
          · exact Or.inr ⟨q, hq', hreach⟩

theorem mem_uniqueIds {l : List Nat} {v : Nat} : v ∈ uniqueIds l ↔ v ∈ l := by
  unfold uniqueIds
  rw [mem_dedupAdj, (List.perm_insertionSort (fun a b : Nat => a ≤ b) l).mem_iff]

theorem nodup_uniqueIds (l : List Nat) : (uniqueIds l).Nodup :=
  nodup_dedupAdj_of_sorted (List.sorted_insertionSort (fun a b : Nat => a ≤ b) l)

/-- C2 (amended).  On every finite graph — cyclic ones included — the
ancestor walk terminates and returns, deduplicated by id, exactly the
sources reachable from the given sources by a nonempty repetition-free
`parents` walk through present sources (the visited stack is scoped to
the current descent, so a source is collected from `s` only along walks
that do not revisit `s` or any intermediate node); the planner's selected
set is this ancestor set unioned with the original dirty set,
deduplicated. -/
theorem ancestors_spec (t : DepTree) (srcs dirty : List Nat) :
    (∃ res, ancestors t srcs = some res ∧ res.Nodup
        ∧ ∀ v, (v ∈ res ↔ ∃ s ∈ srcs, SimpleReach t s v))
      ∧ ∃ sel, selectedSources t dirty = some sel ∧ sel.Nodup
          ∧ ∀ v, (v ∈ sel ↔ (∃ s ∈ dirty, SimpleReach t s v) ∨ v ∈ dirty) := by
  obtain ⟨R, hR⟩ := Option.isSome_iff_exists.mp (ancestorsAll_isSome t srcs)
  obtain ⟨D, hD⟩ := Option.isSome_iff_exists.mp (ancestorsAll_isSome t dirty)
  constructor
  · exact ⟨uniqueIds R, by simp [ancestors, hR], nodup_uniqueIds R,
      fun v => by rw [mem_uniqueIds, ancestorsAll_mem t srcs R hR v]⟩
  · refine ⟨uniqueIds (D ++ dirty), by simp [selectedSources, hD], nodup_uniqueIds _, ?_⟩
    intro v
    rw [mem_uniqueIds, List.mem_append, ancestorsAll_mem t dirty D hD v]

/-- Reachability by one or more `parents` edges, with no restriction on
revisiting vertices. -/
inductive ParentsReach (t : DepTree) : Nat → Nat → Prop where
  | single {a b : Nat} : b ∈ parentsOf t a → ParentsReach t a b
  | tail {a b c : Nat} : ParentsReach t a b → c ∈ parentsOf t b → ParentsReach t a c

/-- The two-source cycle `0 ↔ 1`, every slot present. -/
def cycleTree : DepTree :=
  { roots := [],
    sources := [true, true],
    dependencies := [some [1], some [0]],
    parents := [some [1], some [0]] }

/-- Counterexample to C2 as stated: in the cycle `0 ↔ 1` the source `0`
is reachable from itself by two `parents` edges, yet `ancestors` started
at `0` returns only `[1]` — the ancestor set is not the full
follow-one-or-more-edges reachability set. -/
theorem ancestors_cycle_counterexample :
    ParentsReach cycleTree 0 0
      ∧ ancestors cycleTree [0] = some [1]
      ∧ 0 ∉ (ancestors cycleTree [0]).getD [] :=
  ⟨@ParentsReach.tail cycleTree 0 1 0 (@ParentsReach.single cycleTree 0 1 (by decide))
      (by decide),
    by decide, by decide⟩

/-! ## Invalidation (`Source::needs_tags_update` in `src/types.rs`) -/

/-- Model of `Source::needs_tags_update`, the filesystem reads
(`is_file`) supplied as booleans; the early returns of the code. -/
def needs_tags_update (force_recreate is_root cached_is_file tags_is_file : Bool) : Bool :=
  if force_recreate then true
  else if is_root then true
  else !cached_is_file || !tags_is_file

/-- The per-source data `needs_tags_update` reads. -/
structure SourceFlags where
  is_root : Bool
  cached_is_file : Bool
  tags_is_file : Bool

/-- The initial dirty filter of `update_tags` (`src/tags.rs` lines
21–24): all present sources whose `needs_tags_update` holds, in id
order. -/
def dirtySources (t : DepTree) (flags : Nat → SourceFlags) (force : Bool) : List Nat :=
  (List.range t.sources.length).filter
    (fun i => srcPresent t i && needs_tags_update force (flags i).is_root
      (flags i).cached_is_file (flags i).tags_is_file)

/-- The whole planner of `update_tags`: the dirty filter followed by
ancestor propagation and deduplication. -/
def plannerSelected (t : DepTree) (flags : Nat → SourceFlags) (force : Bool) :
    Option (List Nat) :=
  selectedSources t (dirtySources t flags force)

/-- A root `0` whose parent is the clean source `1`. -/
def chainTree : DepTree :=
  { roots := [0],
    sources := [true, true],
    dependencies := [none, some [0]],
    parents := [some [1], none] }

/-- Flags for `chainTree`: `0` is the workspace root, `1` is a clean
dependency parent with both tag files on disk. -/
def chainFlags : Nat → SourceFlags :=
  fun i => if i = 0 then ⟨true, true, true⟩ else ⟨false, true, true⟩

/-- Counterexample to C3 as stated: `needs_tags_update` is `false` for
source `1` (no force, not a root, both files exist), yet the planner
selects `1` for rebuild, because it is an ancestor of the dirty root
`0`. -/
theorem needs_tags_update_counterexample :
    needs_tags_update false false true true = false
      ∧ 1 ∈ (plannerSelected chainTree chainFlags false).getD [] := by
  constructor
  · rfl
  · decide

/-- C3 (amended).  `needs_tags_update` returns true iff `force_recreate`
is set, or the source is a root, or its cached tags file is missing, or
its tags file is missing; when none holds it returns false and the
source is not part of the planner's initial dirty set (it may still be
selected for rebuild as an ancestor of a dirty source). -/
theorem needs_tags_update_spec (force is_root cached tags : Bool)
    (t : DepTree) (flags : Nat → SourceFlags) (i : Nat)
    (hroot : (flags i).is_root = false) (hcached : (flags i).cached_is_file = true)
    (htags : (flags i).tags_is_file = true) (hforce : force = false) :
    (needs_tags_update force is_root cached tags = true
        ↔ (force = true ∨ is_root = true ∨ cached = false ∨ tags = false))
      ∧ i ∉ dirtySources t flags force := by
  constructor
  · cases force <;> cases is_root <;> cases cached <;> cases tags <;>
      simp [needs_tags_update]
  · intro hmem
    have hcond := (List.mem_filter.mp hmem).2
    rw [hforce, hroot, hcached, htags] at hcond
    simp [needs_tags_update] at hcond

/-- Witness for C3 (amended) at a concrete input. -/
theorem needs_tags_update_spec_witness :
    (chainFlags 1).is_root = false ∧ (chainFlags 1).cached_is_file = true
      ∧ (chainFlags 1).tags_is_file = true ∧ (false : Bool) = false
      ∧ ((needs_tags_update false false true true = true
            ↔ ((false : Bool) = true ∨ (false : Bool) = true
                ∨ (true : Bool) = false ∨ (true : Bool) = false))
          ∧ 1 ∉ dirtySources chainTree chainFlags false) :=
  ⟨rfl, rfl, rfl, rfl,
    needs_tags_update_spec false false true true chainTree chainFlags 1 rfl rfl rfl rfl⟩

/-! ## Graph construction invariants (`new_source`/`set_source`)

`build_dep_tree` in `src/dependencies.rs` builds the tree through an
arbitrary interleaving of `new_source` and `set_source` calls, setting
each id it allocated at most once. -/

/-- A construction step. -/
inductive BuildOp where
  | newSource
  | setSource (id : Nat) (deps : List Nat)
deriving DecidableEq

/-- Apply one construction step. -/
def applyOp (t : DepTree) : BuildOp → DepTree
  | BuildOp.newSource => (new_source t).1
  | BuildOp.setSource id deps => set_source t id deps

/-- Apply a sequence of construction steps. -/
def applyOps (t : DepTree) : List BuildOp → DepTree
  | [] => t
  | op :: ops => applyOps (applyOp t op) ops

/-- The claim's universe of call sequences: `set_source` is called only
on allocated ids that were not set before, with allocated dependency ids
(`SourceId`s only ever come from `new_source`; an unallocated index would
make the Rust vector indexing panic). -/
def validOps (t : DepTree) : List BuildOp → Bool
  | [] => true
  | BuildOp.newSource :: ops => validOps (applyOp t BuildOp.newSource) ops
  | BuildOp.setSource id deps :: ops =>
      decide (id < t.sources.length) && !(t.sources.getD id false)
        && deps.all (fun d => decide (d < t.sources.length))
        && validOps (set_source t id deps) ops

/-- Whether every dependency list passed to `set_source` in the sequence
is free of duplicate ids. -/
def opsDepsNodup : List BuildOp → Bool
  | [] => true
  | BuildOp.newSource :: ops => opsDepsNodup ops
  | BuildOp.setSource _ deps :: ops => decide deps.Nodup && opsDepsNodup ops

/-- The tree built from scratch by a call sequence. -/
def buildTree (ops : List BuildOp) : DepTree :=
  applyOps DepTree.new ops

/-- The adjacency list stored in a slot vector. -/
def slotList (ps : List (Option (List Nat))) (d : Nat) : List Nat :=
  (ps.getD d none).getD []

theorem parentsOf_eq_slotList (t : DepTree) (d : Nat) :
    parentsOf t d = slotList t.parents d := rfl

theorem depsOf_eq_slotList (t : DepTree) (i : Nat) :
    depsOf t i = slotList t.dependencies i := rfl

theorem getD_append_default {α : Type} (l : List α) (d : α) (i : Nat) :
    (l ++ [d]).getD i d = l.getD i d := by
  rw [List.getD_eq_getElem?_getD, List.getD_eq_getElem?_getD]
  by_cases h : i < l.length
  · rw [List.getElem?_append_left h]
  · push_neg at h
    rw [List.getElem?_eq_none h, List.getElem?_append_right h]
    rcases hd : i - l.length with _ | n <;> simp

theorem new_source_parentsOf (t : DepTree) (i : Nat) :
    parentsOf (new_source t).1 i = parentsOf t i := by
  unfold parentsOf new_source
  simp only
  rw [getD_append_default]

theorem new_source_depsOf (t : DepTree) (i : Nat) :
    depsOf (new_source t).1 i = depsOf t i := by
  unfold depsOf new_source
  simp only
  rw [getD_append_default]

theorem new_source_srcPresent (t : DepTree) (i : Nat) :
    srcPresent (new_source t).1 i = srcPresent t i := by
  unfold srcPresent new_source
  simp only
  rw [getD_append_default]

theorem length_addParent (ps : List (Option (List Nat))) (e id : Nat) :
    (addParent ps e id).length = ps.length := by
  unfold addParent
  exact List.length_set ps e _

theorem slotList_addParent (ps : List (Option (List Nat))) (e id d : Nat)
    (he : e < ps.length) :
    slotList (addParent ps e id) d
      = if d = e then slotList ps d ++ [id] else slotList ps d := by
  unfold slotList addParent
  by_cases hd : d = e
  · subst hd
    rw [if_pos rfl, List.getD_eq_getElem?_getD, List.getElem?_set_self he]
    simp
  · rw [if_neg hd, List.getD_eq_getElem?_getD,
      List.getElem?_set_ne (fun h => hd h.symm), ← List.getD_eq_getElem?_getD]

theorem length_foldl_addParent (id : Nat) :
    ∀ (deps : List Nat) (ps : List (Option (List Nat))),
      (deps.foldl (fun ps dep => addParent ps dep id) ps).length = ps.length := by
  intro deps
  induction deps with
  | nil => intro ps; rfl
  | cons e rest ih =>
    intro ps
    simp only [List.foldl_cons]
    rw [ih, length_addParent]

theorem slotList_foldl_addParent (id : Nat) :
    ∀ (deps : List Nat) (ps : List (Option (List Nat))),
      (∀ d ∈ deps, d < ps.length) →
      ∀ d, slotList (deps.foldl (fun ps dep => addParent ps dep id) ps) d
        = slotList ps d ++ List.replicate (deps.count d) id := by
  intro deps
  induction deps with
  | nil =>
    intro ps _ d
    simp
  | cons e rest ih =>
    intro ps h d
    simp only [List.foldl_cons]
    rw [ih (addParent ps e id)
        (fun x hx => by rw [length_addParent]; exact h x (List.mem_cons_of_mem e hx)) d]
    rw [slotList_addParent ps e id d (h e (List.mem_cons_self e rest))]
    by_cases hd : d = e
    · subst hd
      rw [if_pos rfl, List.count_cons_self, List.append_assoc]
      simp [List.replicate_succ]
    · rw [if_neg hd, List.count_cons_of_ne hd]

theorem set_source_lengths (t : DepTree) (id : Nat) (deps : List Nat) :
    (set_source t id deps).sources.length = t.sources.length
      ∧ (set_source t id deps).dependencies.length = t.dependencies.length
      ∧ (set_source t id deps).parents.length = t.parents.length := by
  unfold set_source
  by_cases h : deps.isEmpty <;>
    simp [h, length_foldl_addParent]

theorem set_source_roots (t : DepTree) (id : Nat) (deps : List Nat) :
    (set_source t id deps).roots = t.roots := by
  unfold set_source
  by_cases h : deps.isEmpty <;> simp [h]

theorem set_source_srcPresent (t : DepTree) (id : Nat) (deps : List Nat) (i : Nat)
    (hid : id < t.sources.length) :
    srcPresent (set_source t id deps) i = if i = id then true else srcPresent t i := by
  have hsources : (set_source t id deps).sources = t.sources.set id true := by
    unfold set_source
    by_cases h : deps.isEmpty <;> simp [h]
  unfold srcPresent
  rw [hsources]
  by_cases hi : i = id
  · subst hi
    rw [if_pos rfl, List.getD_eq_getElem?_getD, List.getElem?_set_self hid]
    rfl
  · rw [if_neg hi, List.getD_eq_getElem?_getD,
      List.getElem?_set_ne (fun h => hi h.symm), ← List.getD_eq_getElem?_getD]

/-- The invariant of the dependency graph carried through construction:
consistent vector lengths, valid ids everywhere, `parents` the transpose
of `dependencies` counted with multiplicity, and no dependency record
for an unset slot. -/
structure TreeInv (t : DepTree) : Prop where
  len_deps : t.dependencies.length = t.sources.length
  len_parents : t.parents.length = t.sources.length
  roots_valid : ∀ r ∈ t.roots, r < t.sources.length
  deps_valid : ∀ i, ∀ d ∈ depsOf t i, d < t.sources.length
  parents_valid : ∀ i, ∀ p ∈ parentsOf t i, p < t.sources.length
  transpose_count : ∀ s d, (parentsOf t d).count s = (depsOf t s).count d
  unset_no_deps : ∀ i, srcPresent t i = false → t.dependencies.getD i none = none

theorem treeInv_new : TreeInv DepTree.new := by
  constructor <;> simp [DepTree.new, depsOf, parentsOf, srcPresent]

theorem new_source_inv {t : DepTree} (h : TreeInv t) : TreeInv (new_source t).1 := by
  have hlen : (new_source t).1.sources.length = t.sources.length + 1 := by
    simp [new_source]
  constructor
  · simp [new_source, h.len_deps]
  · simp [new_source, h.len_parents]
  · intro r hr
    rw [hlen]
    have : r ∈ t.roots := by simpa [new_source] using hr
    exact Nat.lt_succ_of_lt (h.roots_valid r this)
  · intro i d hd
    rw [new_source_depsOf] at hd
    rw [hlen]
    exact Nat.lt_succ_of_lt (h.deps_valid i d hd)
  · intro i p hp
    rw [new_source_parentsOf] at hp
    rw [hlen]
    exact Nat.lt_succ_of_lt (h.parents_valid i p hp)
  · intro s d
    rw [new_source_parentsOf, new_source_depsOf]
    exact h.transpose_count s d
  · intro i hi
    rw [new_source_srcPresent] at hi
    show (t.dependencies ++ [none]).getD i none = none
    rw [getD_append_default]
    exact h.unset_no_deps i hi

theorem set_source_depsOf (t : DepTree) (id : Nat) (deps : List Nat) (i : Nat)
    (hinv : TreeInv t) (hid : id < t.sources.length)
    (hunset : t.sources.getD id false = false) :
    depsOf (set_source t id deps) i = if i = id then deps else depsOf t i := by
  have hid' : id < t.dependencies.length := hinv.len_deps ▸ hid
  unfold set_source
  by_cases hempty : deps.isEmpty
  · simp only [hempty, if_true]
    by_cases hi : i = id
    · subst hi
      rw [if_pos rfl]
      show depsOf t i = deps
      unfold depsOf
      rw [hinv.unset_no_deps i hunset]
      rw [List.isEmpty_iff.mp hempty]
      rfl
    · rw [if_neg hi]
      rfl
  · simp only [hempty, if_false]
    by_cases hi : i = id
    · subst hi
      rw [if_pos rfl]
      show ((t.dependencies.set i (some deps)).getD i none).getD [] = deps
      rw [List.getD_eq_getElem?_getD, List.getElem?_set_self hid']
      rfl
    · rw [if_neg hi]
      show ((t.dependencies.set id (some deps)).getD i none).getD [] = depsOf t i
      rw [List.getD_eq_getElem?_getD, List.getElem?_set_ne (fun hh => hi hh.symm),
        ← List.getD_eq_getElem?_getD]
      rfl

theorem set_source_parentsOf (t : DepTree) (id : Nat) (deps : List Nat) (d : Nat)
    (hinv : TreeInv t) (hdeps : ∀ x ∈ deps, x < t.sources.length) :
    parentsOf (set_source t id deps) d
      = parentsOf t d ++ List.replicate (deps.count d) id := by
  unfold set_source
  by_cases hempty : deps.isEmpty
  · rw [List.isEmpty_iff.mp hempty]
    simp only [List.isEmpty_nil, if_true]
    simp [parentsOf]
  · simp only [hempty, if_false]
    show slotList (deps.foldl (fun ps dep => addParent ps dep id) t.parents) d = _
    rw [slotList_foldl_addParent id deps t.parents
      (fun x hx => hinv.len_parents ▸ hdeps x hx) d]
    rfl

theorem set_source_inv {t : DepTree} {id : Nat} {deps : List Nat} (hinv : TreeInv t)
    (hid : id < t.sources.length) (hunset : t.sources.getD id false = false)
    (hdeps : ∀ x ∈ deps, x < t.sources.length) :
    TreeInv (set_source t id deps) := by
  obtain ⟨hls, hld, hlp⟩ := set_source_lengths t id deps
  constructor
  · rw [hls, hld, hinv.len_deps]
  · rw [hls, hlp, hinv.len_parents]
  · intro r hr
    rw [set_source_roots] at hr
    rw [hls]
    exact hinv.roots_valid r hr
  · intro i x hx
    rw [set_source_depsOf t id deps i hinv hid hunset] at hx
    rw [hls]
    by_cases hi : i = id
    · rw [if_pos hi] at hx
      exact hdeps x hx
    · rw [if_neg hi] at hx
      exact hinv.deps_valid i x hx
  · intro i p hp
    rw [set_source_parentsOf t id deps i hinv hdeps] at hp
    rw [hls]
    rcases List.mem_append.mp hp with hp' | hp'
    · exact hinv.parents_valid i p hp'
    · rw [List.eq_of_mem_replicate hp']
      exact hid
  · intro s d
    rw [set_source_parentsOf t id deps d hinv hdeps,
      set_source_depsOf t id deps s hinv hid hunset, List.count_append,
      List.count_replicate]
    by_cases hs : s = id
    · subst hs
      rw [if_pos rfl]
      have hdeps0 : depsOf t s = [] := by
        unfold depsOf
        rw [hinv.unset_no_deps s hunset]
        rfl
      have h0 : (parentsOf t d).count s = 0 := by
        rw [hinv.transpose_count s d, hdeps0]
        rfl
      rw [h0]
      simp
    · rw [if_neg hs]
      have hne : ¬ ((id == s) = true) := by
        simpa using Ne.symm hs
      rw [if_neg hne]
      rw [hinv.transpose_count s d]
      simp
  · intro i hi
    rw [set_source_srcPresent t id deps i hid] at hi
    by_cases hii : i = id
    · rw [if_pos hii] at hi
      simp at hi
    · rw [if_neg hii] at hi
      have hdep : (set_source t id deps).dependencies.getD i none
          = t.dependencies.getD i none := by
        unfold set_source
        by_cases hempty : deps.isEmpty
        · simp [hempty]
        · simp only [hempty, if_false]
          show (t.dependencies.set id (some deps)).getD i none = _
          rw [List.getD_eq_getElem?_getD, List.getElem?_set_ne (fun hh => hii hh.symm),
            ← List.getD_eq_getElem?_getD]
      rw [hdep]
      exact hinv.unset_no_deps i hi

theorem applyOps_inv :
    ∀ (ops : List BuildOp) (t : DepTree), TreeInv t → validOps t ops = true →
      opsDepsNodup ops = true → (∀ i, (depsOf t i).Nodup) →
      TreeInv (applyOps t ops) ∧ ∀ i, (depsOf (applyOps t ops) i).Nodup := by
  intro ops
  induction ops with
  | nil =>
    intro t hinv _ _ hdn
    exact ⟨hinv, hdn⟩
  | cons op rest ih =>
    intro t hinv hvalid hnodup hdn
    cases op with
    | newSource =>
      simp only [applyOps, applyOp]
      simp only [validOps, applyOp] at hvalid
      simp only [opsDepsNodup] at hnodup
      refine ih (new_source t).1 (new_source_inv hinv) hvalid hnodup ?_
      intro i
      rw [new_source_depsOf]
      exact hdn i
    | setSource id deps =>
      simp only [applyOps, applyOp]
      simp only [validOps, Bool.and_eq_true, decide_eq_true_eq, List.all_eq_true,
        Bool.not_eq_true'] at hvalid
      obtain ⟨⟨⟨hid, hunset⟩, hdeps⟩, hrest⟩ := hvalid
      simp only [opsDepsNodup, Bool.and_eq_true, decide_eq_true_eq] at hnodup
      refine ih (set_source t id deps) (set_source_inv hinv hid hunset hdeps) hrest
        hnodup.2 ?_
      intro i
      rw [set_source_depsOf t id deps i hinv hid hunset]
      by_cases hi : i = id
      · rw [if_pos hi]
        exact hnodup.1
      · rw [if_neg hi]
        exact hdn i

/-- C6 (amended).  A tree built by any sequence of `new_source` and
`set_source` calls that sets each allocated id at most once, passes only
allocated ids, and — as `build_dep_tree` must for the per-list uniqueness
to hold — hands `set_source` duplicate-free dependency lists, satisfies:
every id in `roots`, `dependencies` and `parents` indexes into `sources`;
`parents` is the transpose of `dependencies` (membership in both
directions, with equal multiplicities); and each id occurs at most once
per adjacency list. -/
theorem dep_tree_invariants (ops : List BuildOp)
    (hvalid : validOps DepTree.new ops = true)
    (hnodup : opsDepsNodup ops = true) :
    (∀ r ∈ (buildTree ops).roots, r < (buildTree ops).sources.length)
      ∧ (∀ i, ∀ d ∈ depsOf (buildTree ops) i, d < (buildTree ops).sources.length)
      ∧ (∀ i, ∀ p ∈ parentsOf (buildTree ops) i, p < (buildTree ops).sources.length)
      ∧ (∀ s d, s ∈ parentsOf (buildTree ops) d ↔ d ∈ depsOf (buildTree ops) s)
      ∧ (∀ s d, (parentsOf (buildTree ops) d).count s = (depsOf (buildTree ops) s).count d)
      ∧ (∀ i, (depsOf (buildTree ops) i).Nodup ∧ (parentsOf (buildTree ops) i).Nodup) := by
  obtain ⟨hinv, hdn⟩ := applyOps_inv ops DepTree.new treeInv_new hvalid hnodup
    (fun i => by simp [depsOf, DepTree.new])
  unfold buildTree
  refine ⟨hinv.roots_valid, hinv.deps_valid, hinv.parents_valid, ?_, hinv.transpose_count, ?_⟩
  · intro s d
    rw [← List.count_pos_iff, ← List.count_pos_iff, hinv.transpose_count s d]
  · intro i
    refine ⟨hdn i, ?_⟩
    rw [List.nodup_iff_count_le_one]
    intro s
    rw [hinv.transpose_count s i]
    exact List.nodup_iff_count_le_one.mp (hdn s) i

/-- A sequence the claim's hypothesis admits (each allocated id set at
most once) whose single `set_source` call passes a duplicated id. -/
def dupOps : List BuildOp :=
  [BuildOp.newSource, BuildOp.newSource, BuildOp.setSource 0 [1, 1]]

/-- Counterexample to C6 as stated: setting source `0` with the
dependency list `[1, 1]` is a sequence in which each allocated id is set
at most once, yet afterwards `1` occurs twice in `dependencies[0]` and
`0` occurs twice in `parents[1]`. -/
theorem dep_tree_dup_counterexample :
    validOps DepTree.new dupOps = true
      ∧ ¬ (depsOf (buildTree dupOps) 0).Nodup
      ∧ ¬ (parentsOf (buildTree dupOps) 1).Nodup := by
  refine ⟨by decide, by decide, by decide⟩

/-- A duplicate-free demonstration sequence. -/
def demoOps : List BuildOp :=
  [BuildOp.newSource, BuildOp.newSource, BuildOp.setSource 0 [1]]

/-- Witness for C6 (amended) at a concrete input. -/
theorem dep_tree_invariants_witness :
    validOps DepTree.new demoOps = true
      ∧ opsDepsNodup demoOps = true
      ∧ ((∀ r ∈ (buildTree demoOps).roots, r < (buildTree demoOps).sources.length)
          ∧ (∀ i, ∀ d ∈ depsOf (buildTree demoOps) i, d < (buildTree demoOps).sources.length)
          ∧ (∀ i, ∀ p ∈ parentsOf (buildTree demoOps) i,
              p < (buildTree demoOps).sources.length)
          ∧ (∀ s d, s ∈ parentsOf (buildTree demoOps) d ↔ d ∈ depsOf (buildTree demoOps) s)
          ∧ (∀ s d, (parentsOf (buildTree demoOps) d).count s
              = (depsOf (buildTree demoOps) s).count d)
          ∧ (∀ i, (depsOf (buildTree demoOps) i).Nodup
              ∧ (parentsOf (buildTree demoOps) i).Nodup)) :=
  ⟨by decide, by decide, dep_tree_invariants demoOps (by decide) (by decide)⟩

end RustyTags
